import Mathlib

/-!
Verification development for the shift-and-mask engine of the
targetShifter repository (notebook `proof_of_concept01.ipynb`).

The engine works on a 2-d numeric torch tensor (a panel table whose
columns are row_id, time_index, group_id, features..., target).  We embed
a tensor shallowly: a cell is an `Option ℚ` where `none` plays the role
of the floating-point NaN sentinel and `some q` a finite numeric value,
and a tensor is its column count together with its list of rows (torch
tensors are rectangular; rectangularity is the `Tensor.WF` predicate,
carried as a hypothesis where a proof needs it).

Python/torch primitives used by the source are embedded one by one:
`pyIdx` resolves a (possibly negative) Python column index, `pySliceTo`
is the Python slice `l[:k]` (signed `k`), `torchRoll` is `torch.roll`
along dim 0, `torchIsin` is `torch.isin` (NaN compares unequal to
everything, itself included), `torchUniqueSorted` is
`torch.sort(torch.unique(x)).values` (sorted distinct numeric values;
NaN cells are pairwise distinct and sort last).
-/

/-- A tensor cell: `none` is the NaN sentinel, `some q` a numeric value. -/
abbrev Cell := Option ℚ

/-- A 2-d tensor: column count and rows. -/
structure Tensor where
  ncols : ℕ
  rows : List (List Cell)
deriving DecidableEq, Repr

/-- Rectangularity of a torch tensor: every row has `ncols` cells. -/
def Tensor.WF (t : Tensor) : Prop := ∀ r ∈ t.rows, r.length = t.ncols

instance (t : Tensor) : Decidable t.WF := by
  unfold Tensor.WF; infer_instance

/-- Resolve a Python-style (possibly negative) index against width `w`:
`data[:, i]` accepts `-w ≤ i < w`, negative values counting from the end. -/
def pyIdx (w : ℕ) (i : ℤ) : Option ℕ :=
  if 0 ≤ i then (if i < (w : ℤ) then some i.toNat else none)
  else (if 0 ≤ (w : ℤ) + i then some ((w : ℤ) + i).toNat else none)

/-- Column extraction `data[:, idx]`; `none` when the index is out of range. -/
def getCol (t : Tensor) (idx : ℤ) : Option (List Cell) :=
  (pyIdx t.ncols idx).map fun j => t.rows.map fun r => r.getD j none

/-- Column assignment `data[:, idx] = col`; `none` when the index is out of
range.  The assigned column always has one value per row in the source. -/
def setCol (t : Tensor) (idx : ℤ) (col : List Cell) : Option Tensor :=
  (pyIdx t.ncols idx).map fun j =>
    ⟨t.ncols, List.zipWith (fun r v => r.set j v) t.rows col⟩

/-- `torch.column_stack([data, col])`: append one cell to each row. -/
def columnStack (t : Tensor) (col : List Cell) : Tensor :=
  ⟨t.ncols + 1, List.zipWith (fun r v => r ++ [v]) t.rows col⟩

/-- torch equality on cells: NaN is not equal to anything, itself included. -/
def cellEq (a b : Cell) : Bool :=
  match a, b with
  | some x, some y => x == y
  | _, _ => false

/-- `torch.isin(l, s)`: elementwise membership of `l` in `s` under torch
equality. -/
def torchIsin (l s : List Cell) : List Bool :=
  l.map fun v => s.any (cellEq v)

/-- `torch.sort(torch.unique(x)).values`: the distinct numeric values in
ascending order (sorting the already sorted unique values is the identity),
followed by the NaN cells, which `torch.unique` keeps (NaN ≠ NaN) and
`torch.sort` places last. -/
def torchUniqueSorted (l : List Cell) : List Cell :=
  (List.insertionSort (· ≤ ·) (l.filterMap id).dedup).map some
    ++ l.filter fun c => c.isNone

/-- Python slice `l[:k]` for a signed bound `k`: a nonnegative `k` keeps the
first `k` elements, a negative `k` drops the last `|k|`. -/
def pySliceTo (l : List α) (k : ℤ) : List α :=
  if 0 ≤ k then l.take k.toNat else l.take (l.length - (-k).toNat)

/-- The boundary-mask computation of `shift_and_mask_column` (the three
lines computing `unique_time_idx`, `time_values_to_mask` and
`time_values_mask`): mark the rows whose time cell lies in
`torch.sort(torch.unique(time_column)).values[:steps]`. -/
def build_boundary_mask (time_column : List Cell) (steps : ℤ) : List Bool :=
  let unique_time_idx := torchUniqueSorted time_column
  let time_values_to_mask := pySliceTo unique_time_idx steps
  torchIsin time_column time_values_to_mask

/-- `torch.where(~mask, col, nan)`: keep a cell where the mask is false,
put the NaN sentinel where it is true. -/
def maskWhere (mask : List Bool) (col : List Cell) : List Cell :=
  List.zipWith (fun b v => if b then (none : Cell) else v) mask col

/-- `torch.roll(l, shifts, dims=0)`: element `i` of the result is element
`(i - shifts) mod n` of `l`, i.e. a left rotation by `(-shifts) mod n`. -/
def torchRoll (l : List α) (shifts : ℤ) : List α :=
  if l.length = 0 then l
  else
    let k := ((-shifts) % (l.length : ℤ)).toNat
    l.drop k ++ l.take k

/-- The censor stage of `shift_and_mask_column` (the `return_full == False`
branch): `nan_mask = ~torch.isnan(data[:, target_col]); data = data[nan_mask]`.
Rows whose cell in the target column is the NaN sentinel are removed,
the others kept in order. -/
def filter_undefined (t : Tensor) (target_col : ℤ) : Option Tensor :=
  (getCol t target_col).map fun col =>
    ⟨t.ncols, ((t.rows.zip col).filter fun rv => rv.2.isSome).map Prod.fst⟩

/-- Embedding of `shift_and_mask_column` from the notebook.  The numpy →
torch conversion is value-preserving and elided.  The device-placement
prologue assigns the working tensor `data` only when
`torch.cuda.is_available() and not force_cpu` (move to GPU) or `force_cpu`
(clone); otherwise `data` is never assigned and the first use raises
(`none` here).  Both assignments preserve all cell values, so the embedding
keeps `data_org` itself.  `cuda_available` models
`torch.cuda.is_available()`.  Out-of-range column indices make the torch
indexing raise, embedded as `none`.  Note the source reads the column to
shift from index `-time_column_idx`, not `column_to_shift_idx`. -/
def shift_and_mask_column (data_org : Tensor) (column_to_shift_idx : ℤ := -1)
    (time_column_idx : ℤ := 1) (steps : ℤ := 1) (force_cpu : Bool := false)
    (return_full : Bool := false) (retain_unshifted_col : Bool := false)
    (cuda_available : Bool := false) : Option Tensor :=
  if (cuda_available && !force_cpu) || force_cpu then
    match getCol data_org time_column_idx, getCol data_org (-time_column_idx) with
    | some time_column, some column_to_shift =>
        let time_values_mask := build_boundary_mask time_column steps
        let masked_column_to_shift := maskWhere time_values_mask column_to_shift
        let masked_column_shifted := torchRoll masked_column_to_shift (-steps)
        match (if retain_unshifted_col then
                 some (columnStack data_org masked_column_shifted)
               else setCol data_org column_to_shift_idx masked_column_shifted) with
        | some data =>
            if return_full then some data
            else filter_undefined data column_to_shift_idx
        | none => none
    | _, _ => none
  else none

/-- The panel tables of the spec's data model, as produced by
`generate_synthetic_temporal_dataset` with `num_features = 0`: `G` groups,
each spanning exactly the time indices `0, …, T-1` once, sorted by
(group, time), with columns row_id, time_index, group_id, target.  The
row_id and target entries are arbitrary numeric values given by `rid`
and `tgt`. -/
def mkPanel (G T : ℕ) (rid tgt : ℕ → ℕ → ℚ) : Tensor :=
  ⟨4, (List.range G).flatMap fun g => (List.range T).map fun τ =>
      [some (rid g τ), some (τ : ℚ), some (g : ℚ), some (tgt g τ)]⟩

/-- The spec's headline scenario: one group, four time steps `[0,1,2,3]`,
target `[10,20,30,40]`. -/
def scenarioTable : Tensor :=
  ⟨4, [[some 0, some 0, some 0, some 10],
       [some 1, some 1, some 0, some 20],
       [some 2, some 2, some 0, some 30],
       [some 3, some 3, some 0, some 40]]⟩

/-- Spec-side mask, following the spec's words: row `i` is marked iff its
time value is among the `k` smallest distinct time-index values present
anywhere in the table, i.e. iff fewer than `k` distinct values are strictly
below it. -/
def specSmallestMask (tc : List ℚ) (k : ℕ) : List Bool :=
  tc.map fun v => decide ((tc.dedup.filter fun w => w < v).length < k)

/-- One group over time steps `[0,1,2]` with target `[10,20,30]`. -/
def oneGroupThree : Tensor :=
  ⟨4, [[some 0, some 0, some 0, some 10],
       [some 1, some 1, some 0, some 20],
       [some 2, some 2, some 0, some 30]]⟩

/-- A three-column table (column 0, time column, last column) whose first
and last columns differ everywhere, to separate the configured shift column
from the column the code actually reads. -/
def threeColTable : Tensor :=
  ⟨3, [[some 1, some 0, some 7],
       [some 2, some 1, some 8]]⟩

/-- The filtered result of the headline scenario at `steps = 1`. -/
def scenarioFiltered : Tensor :=
  ⟨4, [[some 0, some 0, some 0, some 20],
       [some 1, some 1, some 0, some 30],
       [some 2, some 2, some 0, some 40]]⟩

/-! ### Helper lemmas -/

theorem pyIdx_lt {w : ℕ} {i : ℤ} {j : ℕ} (h : pyIdx w i = some j) : j < w := by
  unfold pyIdx at h
  split at h
  · split at h
    · simp only [Option.some.injEq] at h
      omega
    · exact absurd h (by simp)
  · split at h
    · simp only [Option.some.injEq] at h
      omega
    · exact absurd h (by simp)

theorem getCol_length {t : Tensor} {i : ℤ} {c : List Cell}
    (h : getCol t i = some c) : c.length = t.rows.length := by
  unfold getCol at h
  cases hj : pyIdx t.ncols i with
  | none => rw [hj] at h; exact absurd h (by simp)
  | some j =>
      rw [hj] at h
      simp only [Option.map_some', Option.some.injEq] at h
      subst h
      simp

theorem torchRoll_length (l : List α) (s : ℤ) :
    (torchRoll l s).length = l.length := by
  unfold torchRoll
  split
  · rfl
  · simp only [List.length_append, List.length_drop, List.length_take]
    omega

theorem mem_torchRoll {l : List α} {s : ℤ} {x : α} :
    x ∈ torchRoll l s ↔ x ∈ l := by
  unfold torchRoll
  split
  · rfl
  · constructor
    · intro hx
      rcases List.mem_append.mp hx with h | h
      · exact List.mem_of_mem_drop h
      · exact List.mem_of_mem_take h
    · intro hx
      rw [← List.take_append_drop ((((-s) % (l.length : ℤ)).toNat)) l] at hx
      rcases List.mem_append.mp hx with h | h
      · exact List.mem_append.mpr (Or.inr h)
      · exact List.mem_append.mpr (Or.inl h)

theorem torchRoll_countP (p : α → Bool) (l : List α) (s : ℤ) :
    (torchRoll l s).countP p = l.countP p := by
  unfold torchRoll
  split
  · rfl
  · rw [List.countP_append]
    conv_rhs => rw [← List.take_append_drop ((((-s) % (l.length : ℤ)).toNat)) l]
    rw [List.countP_append]
    omega

theorem torchRoll_replicate (n : ℕ) (a : α) (s : ℤ) :
    torchRoll (List.replicate n a) s = List.replicate n a := by
  apply List.eq_replicate_iff.mpr
  constructor
  · rw [torchRoll_length, List.length_replicate]
  · intro b hb
    exact List.eq_of_mem_replicate (mem_torchRoll.mp hb)

theorem torchRoll_zero (l : List α) : torchRoll l 0 = l := by
  unfold torchRoll
  split
  · rfl
  · simp

theorem maskWhere_length (m : List Bool) (c : List Cell) :
    (maskWhere m c).length = min m.length c.length := by
  simp [maskWhere]

theorem maskWhere_false : ∀ (c : List Cell),
    maskWhere (List.replicate c.length false) c = c := by
  intro c
  induction c with
  | nil => rfl
  | cons v c ih => simpa [maskWhere, List.replicate_succ] using ih

theorem maskWhere_true : ∀ (c : List Cell),
    maskWhere (List.replicate c.length true) c =
      List.replicate c.length none := by
  intro c
  induction c with
  | nil => rfl
  | cons v c ih => simpa [maskWhere, List.replicate_succ] using ih

theorem countP_isNone_maskWhere : ∀ (m : List Bool) (c : List Cell),
    m.length = c.length → (∀ v ∈ c, v.isSome) →
    (maskWhere m c).countP (fun v => v.isNone) = m.count true := by
  intro m
  induction m with
  | nil => intro c _ _; rfl
  | cons b m ih =>
      intro c hlen hsome
      cases c with
      | nil => simp at hlen
      | cons v c =>
          have hv : v.isSome := hsome v (List.mem_cons_self v c)
          have hrest : (maskWhere m c).countP (fun v => v.isNone) =
              m.count true := by
            refine ih c (by simpa using hlen) ?_
            intro w hw
            exact hsome w (List.mem_cons_of_mem v hw)
          have hstep : maskWhere (b :: m) (v :: c) =
              (if b then none else v) :: maskWhere m c := rfl
          rw [hstep, List.countP_cons, List.count_cons, hrest]
          cases b with
          | true => simp
          | false =>
              have hvn : v.isNone = false := by
                cases v
                · simp at hv
                · rfl
              simp [hvn]

theorem getD_set_self {r : List Cell} {j : ℕ} (h : j < r.length) (v d : Cell) :
    (r.set j v).getD j d = v := by
  rw [List.getD_eq_getElem?_getD, List.getElem?_set_self (by simpa using h)]
  rfl

theorem set_getD_self : ∀ (r : List Cell) (j : ℕ), j < r.length →
    r.set j (r.getD j none) = r := by
  intro r
  induction r with
  | nil => intro j h; simp at h
  | cons a r ih =>
      intro j h
      cases j with
      | zero => simp
      | succ j =>
          simp only [List.set_cons_succ, List.getD_cons_succ, List.cons.injEq,
            true_and]
          exact ih j (by simpa using h)

theorem mem_zipWith {f : α → β → γ} {x : γ} : ∀ {as : List α} {bs : List β},
    x ∈ List.zipWith f as bs → ∃ a ∈ as, ∃ b ∈ bs, x = f a b := by
  intro as
  induction as with
  | nil => intro bs h; simp at h
  | cons a as ih =>
      intro bs h
      cases bs with
      | nil => simp at h
      | cons b bs =>
          rcases List.mem_cons.mp h with h | h
          · exact ⟨a, List.mem_cons_self a as, b, List.mem_cons_self b bs, h⟩
          · rcases ih h with ⟨a', ha, b', hb, hx⟩
            exact ⟨a', List.mem_cons_of_mem a ha, b',
              List.mem_cons_of_mem b hb, hx⟩

theorem filter_zip_map (g : List Cell → Cell) (p : Cell → Bool) :
    ∀ (l : List (List Cell)),
    ((l.zip (l.map g)).filter fun rv => p rv.2).map Prod.fst =
      l.filter fun r => p (g r) := by
  intro l
  induction l with
  | nil => rfl
  | cons r l ih =>
      simp only [List.map_cons, List.zip_cons_cons, List.filter_cons]
      cases hpr : p (g r) with
      | true => simp [ih]
      | false => simp [ih]

theorem map_getD_zipWith_set {j : ℕ} :
    ∀ (rows : List (List Cell)) (col : List Cell),
    rows.length = col.length → (∀ r ∈ rows, j < r.length) →
    (List.zipWith (fun r v => r.set j v) rows col).map
      (fun r => r.getD j none) = col := by
  intro rows
  induction rows with
  | nil =>
      intro col hlen _
      cases col
      · rfl
      · simp at hlen
  | cons r rows ih =>
      intro col hlen hj
      cases col with
      | nil => simp at hlen
      | cons v col =>
          simp only [List.zipWith_cons_cons, List.map_cons, List.cons.injEq]
          constructor
          · exact getD_set_self (hj r (List.mem_cons_self r rows)) v none
          · exact ih col (by simpa using hlen)
              (fun r' hr' => hj r' (List.mem_cons_of_mem r hr'))

theorem build_boundary_mask_zero (tc : List Cell) :
    build_boundary_mask tc 0 = List.replicate tc.length false := by
  have h : pySliceTo (torchUniqueSorted tc) 0 = [] := by
    simp [pySliceTo]
  simp [build_boundary_mask, h, torchIsin, List.map_const']

theorem filter_zip_none : ∀ (l : List (List Cell)) (c : List Cell),
    (∀ v ∈ c, v = none) →
    (l.zip c).filter (fun rv => rv.2.isSome) = [] := by
  intro l c hc
  apply List.filter_eq_nil_iff.mpr
  intro rv hrv
  have h2 := (List.of_mem_zip hrv).2
  rw [hc rv.2 h2]
  simp

theorem filter_undefined_eq {t : Tensor} {ci : ℤ} {j : ℕ}
    (hj : pyIdx t.ncols ci = some j) :
    filter_undefined t ci =
      some ⟨t.ncols, t.rows.filter fun r => (r.getD j none).isSome⟩ := by
  unfold filter_undefined getCol
  rw [hj]
  simp only [Option.map_some', Option.some.injEq, Tensor.mk.injEq, true_and]
  exact filter_zip_map (fun r => r.getD j none) (fun v => v.isSome) t.rows

/-! ### Claim theorems -/

/-- C1: the spec claims that after the shift stage each row at time
position `t ≥ steps` carries the source value from `steps` periods
EARLIER and the first `steps` rows of each group are NaN; on the
scenario (1 group, times `[0,1,2,3]`, target `[10,20,30,40]`, `steps=1`)
the claimed result is `[nan,10,20,30]` with survivors `[10,20,30]`.
The code instead produces `[20,30,40,nan]` — each row receives the value
from `steps` periods LATER (`torch.roll` with `shifts=-steps` rotates the
column upwards), so the survivors are `[20,30,40]` aligned to time steps
`[0,1,2]`.  This contradicts the function's own docstring ("Shifts a
specified column down ... lagging by one step") and the comment on the
roll line ("needs negative steps here to lag and not lead"). -/
theorem C1_scenario_lead_not_lag :
    (shift_and_mask_column scenarioTable (-1) 1 1 true true false false).bind
      (fun d => getCol d (-1)) = some [some 20, some 30, some 40, none] ∧
    shift_and_mask_column scenarioTable (-1) 1 1 true false false false =
      some scenarioFiltered ∧
    some [some 20, some 30, some 40, none] ≠
      some [none, some 10, some 20, some 30] := by decide

/-- C2 counterexample: the claim says a negative `steps` marks exactly the
rows its absolute value marks, i.e. the rows whose time value is among the
`|steps|` smallest distinct values.  On time column `[0,1,2]` the code
marks `[true,true,false]` for `steps = -1` (the Python slice `[:-1]` keeps
all but the last distinct value) but `[true,false,false]` for `steps = 1`. -/
theorem C2_negative_steps_counterexample :
    build_boundary_mask [some 0, some 1, some 2] (-1) = [true, true, false] ∧
    build_boundary_mask [some 0, some 1, some 2] 1 = [true, false, false] ∧
    ([true, true, false] : List Bool) ≠ [true, false, false] := by decide

/-- C3 counterexample: for one group over times `[0,1,2]` and
`steps = -1`, filtering removes 2 rows, not
`G × |steps| = 1 × 1` as the claim states for every signed `steps`. -/
theorem C3_negative_steps_counterexample :
    (shift_and_mask_column oneGroupThree (-1) 1 (-1) true false false
        false).map (fun d => oneGroupThree.rows.length - d.rows.length) =
      some 2 ∧ (2 : ℕ) ≠ 1 * (-1 : ℤ).natAbs := by decide

/-- C4: the spec claims the shifted values are read from the configured
source column (`column_to_shift_idx`, default the last column) and that the
time-column setting never affects which column is read.  The code reads
`data[:, -time_column_idx]` instead: on a 3-column table with
`column_to_shift_idx = 0` and `time_column_idx = 1`, the values written
into column 0 come from the last column (`[7,8]`, giving `[some 8, none]`
after mask and roll), not from the configured column 0 (`[1,2]`, which
would give `[some 2, none]`).  This contradicts the docstring's
description of `column_to_shift_idx` as "Index of the column to be
shifted": the configured index only selects where the result is written. -/
theorem C4_source_column_ignored :
    (shift_and_mask_column threeColTable 0 1 1 true true false false).bind
      (fun d => getCol d 0) = some [some 8, none] ∧
    some [some 8, none] ≠ some [some 2, none] := by decide

/-- C5 counterexample: with `|steps| = 5` exceeding the 4 distinct time
values of the scenario table, the claim says the call fails fast with a
configuration error; the code instead succeeds, masking every row and
returning the empty filtered table. -/
theorem C5_oversized_steps_no_error :
    shift_and_mask_column scenarioTable (-1) 1 5 true false false false =
      some ⟨4, []⟩ := by decide

/-- C6 counterexample: the claim says forcing the general-purpose
processor never changes the result.  When no CUDA device is available the
run with `force_cpu = false` fails (the working variable `data` is never
assigned) while the run with `force_cpu = true` succeeds. -/
theorem C6_force_cpu_counterexample :
    shift_and_mask_column scenarioTable (-1) 1 1 false false false false =
      none ∧
    shift_and_mask_column scenarioTable (-1) 1 1 true false false false =
      some scenarioFiltered := by decide

/-- C6 amended: whenever a CUDA device is available, the computation
placement (`force_cpu`) has no effect on the produced values: the two
placement branches differ only in where the working copy lives. -/
theorem C6_placement_no_semantic_effect (t : Tensor) (ci ti steps : ℤ)
    (rf ru : Bool) :
    shift_and_mask_column t ci ti steps true rf ru true =
      shift_and_mask_column t ci ti steps false rf ru true := by
  rfl

/-- C10: when no CUDA device is available and `force_cpu` is false (its
default), `shift_and_mask_column` fails before computing any mask, shift
or filter: the working variable `data` is assigned in neither placement
branch, so its first use raises and no partial result is produced. -/
theorem C10_no_cuda_unassigned_data (t : Tensor) (ci ti steps : ℤ)
    (rf ru : Bool) :
    shift_and_mask_column t ci ti steps false rf ru false = none := by
  rfl

theorem shift_eq (t : Tensor) (ci ti steps : ℤ) (fc rf ru ca : Bool) :
    shift_and_mask_column t ci ti steps fc rf ru ca =
      if (ca && !fc) || fc then
        match getCol t ti, getCol t (-ti) with
        | some tc, some sc =>
            (match (if ru then
                      some (columnStack t (torchRoll
                        (maskWhere (build_boundary_mask tc steps) sc) (-steps)))
                    else setCol t ci (torchRoll
                      (maskWhere (build_boundary_mask tc steps) sc) (-steps))) with
             | some d => if rf then some d else filter_undefined d ci
             | none => none)
        | _, _ => none
      else none := rfl

theorem mem_filter_undefined {t t' : Tensor} {ci : ℤ}
    (h : filter_undefined t ci = some t') :
    t'.ncols = t.ncols ∧ ∀ r' ∈ t'.rows, r' ∈ t.rows := by
  unfold filter_undefined getCol at h
  cases hj : pyIdx t.ncols ci with
  | none => rw [hj] at h; exact absurd h (by simp)
  | some j =>
      rw [hj] at h
      simp only [Option.map_some', Option.some.injEq] at h
      subst h
      refine ⟨rfl, ?_⟩
      intro r' hr'
      rcases List.mem_map.mp hr' with ⟨rv, hrv, hfst⟩
      have hz := List.mem_filter.mp hrv
      have := List.of_mem_zip hz.1
      rw [← hfst]
      exact this.1

/-- C9: the censor stage.  First conjunct: a run with `return_full = false`
(`keep_all` false) equals the corresponding `return_full = true` run
followed by the censor filter, i.e. with `keep_all` true the filtering
stage leaves the table unchanged.  Second conjunct: the censor filter
removes exactly the rows whose cell in the target column is the NaN
sentinel, keeping the others — `List.filter` — so the relative order of
the surviving rows is preserved. -/
theorem C9_censor_filter :
    (∀ (t : Tensor) (ci ti steps : ℤ) (fc ru ca : Bool),
        shift_and_mask_column t ci ti steps fc false ru ca =
          (shift_and_mask_column t ci ti steps fc true ru ca).bind
            (fun d => filter_undefined d ci)) ∧
    (∀ (t : Tensor) (ci : ℤ) (j : ℕ), pyIdx t.ncols ci = some j →
        filter_undefined t ci =
          some ⟨t.ncols, t.rows.filter fun r => (r.getD j none).isSome⟩) := by
  constructor
  · intro t ci ti steps fc ru ca
    rw [shift_eq, shift_eq]
    cases hg : (ca && !fc) || fc with
    | false => simp
    | true =>
        simp only [if_true]
        cases htc : getCol t ti with
        | none => simp
        | some tc =>
            cases hsc : getCol t (-ti) with
            | none => simp
            | some sc =>
                simp only []
                cases hset : (if ru then
                    some (columnStack t (torchRoll
                      (maskWhere (build_boundary_mask tc steps) sc) (-steps)))
                  else setCol t ci (torchRoll
                    (maskWhere (build_boundary_mask tc steps) sc) (-steps))) with
                | none => simp
                | some d => simp
  · intro t ci j hj
    exact filter_undefined_eq hj

/-- C9 witness: the censor-stage theorem applied to the scenario table. -/
theorem C9_censor_filter_witness :
    shift_and_mask_column scenarioTable (-1) 1 1 true false false false =
      (shift_and_mask_column scenarioTable (-1) 1 1 true true false
        false).bind (fun d => filter_undefined d (-1)) ∧
    filter_undefined scenarioTable (-1) =
      some ⟨4, scenarioTable.rows.filter fun r => (r.getD 3 none).isSome⟩ :=
  ⟨C9_censor_filter.1 scenarioTable (-1) 1 1 true false false,
   C9_censor_filter.2 scenarioTable (-1) 3 (by decide)⟩

/-- C7: the engine never mutates its input (the embedding is pure: the
placement prologue works on a moved-or-cloned copy), and in the produced
table every surviving row is one of the input rows with only the written
target cell replaced — in overwrite mode (`retain_unshifted_col = false`)
each output row is `r.set j v` for an input row `r`, where `j` is the
resolved target column, so row_id, time_index, group_id and all feature
columns keep their original values; in append mode each output row is an
input row with one cell appended and no original column touched. -/
theorem C7_frame_other_columns (t : Tensor) (ci ti steps : ℤ)
    (fc rf ca : Bool) :
    (∀ t', shift_and_mask_column t ci ti steps fc rf false ca = some t' →
        t'.ncols = t.ncols ∧ ∃ j, pyIdx t.ncols ci = some j ∧
          ∀ r' ∈ t'.rows, ∃ r ∈ t.rows, ∃ v, r' = r.set j v) ∧
    (∀ t', shift_and_mask_column t ci ti steps fc rf true ca = some t' →
        t'.ncols = t.ncols + 1 ∧
          ∀ r' ∈ t'.rows, ∃ r ∈ t.rows, ∃ v, r' = r ++ [v]) := by
  constructor
  · intro t' h
    rw [shift_eq] at h
    cases hg : (ca && !fc) || fc with
    | false => rw [hg] at h; exact absurd h (by simp)
    | true =>
        rw [hg] at h
        simp only [if_true] at h
        cases htc : getCol t ti with
        | none => rw [htc] at h; exact absurd h (by simp)
        | some tc =>
            cases hsc : getCol t (-ti) with
            | none => rw [htc, hsc] at h; exact absurd h (by simp)
            | some sc =>
                rw [htc, hsc] at h
                simp only [Bool.false_eq_true, if_false] at h
                unfold setCol at h
                cases hj : pyIdx t.ncols ci with
                | none => rw [hj] at h; exact absurd h (by simp)
                | some j =>
                    rw [hj] at h
                    simp only [Option.map_some'] at h
                    set shifted := torchRoll
                      (maskWhere (build_boundary_mask tc steps) sc) (-steps)
                      with hsh
                    have hmem : ∀ r' ∈ (List.zipWith (fun r v => r.set j v)
                        t.rows shifted), ∃ r ∈ t.rows, ∃ v, r' = r.set j v := by
                      intro r' hr'
                      rcases mem_zipWith hr' with ⟨r, hr, v, _, heq⟩
                      exact ⟨r, hr, v, heq⟩
                    cases hrf : rf with
                    | true =>
                        rw [hrf] at h
                        simp only [if_true, Option.some.injEq] at h
                        subst h
                        exact ⟨rfl, j, rfl, hmem⟩
                    | false =>
                        rw [hrf] at h
                        simp only [Bool.false_eq_true, if_false] at h
                        have hf := mem_filter_undefined h
                        refine ⟨hf.1, j, rfl, ?_⟩
                        intro r' hr'
                        exact hmem r' (hf.2 r' hr')
  · intro t' h
    rw [shift_eq] at h
    cases hg : (ca && !fc) || fc with
    | false => rw [hg] at h; exact absurd h (by simp)
    | true =>
        rw [hg] at h
        simp only [if_true] at h
        cases htc : getCol t ti with
        | none => rw [htc] at h; exact absurd h (by simp)
        | some tc =>
            cases hsc : getCol t (-ti) with
            | none => rw [htc, hsc] at h; exact absurd h (by simp)
            | some sc =>
                rw [htc, hsc] at h
                simp only [if_true] at h
                have hmem : ∀ r' ∈ (columnStack t (torchRoll
                    (maskWhere (build_boundary_mask tc steps) sc)
                    (-steps))).rows, ∃ r ∈ t.rows, ∃ v, r' = r ++ [v] := by
                  intro r' hr'
                  rcases mem_zipWith hr' with ⟨r, hr, v, _, heq⟩
                  exact ⟨r, hr, v, heq⟩
                cases hrf : rf with
                | true =>
                    rw [hrf] at h
                    simp only [if_true, Option.some.injEq] at h
                    subst h
                    exact ⟨rfl, hmem⟩
                | false =>
                    rw [hrf] at h
                    simp only [Bool.false_eq_true, if_false] at h
                    have hf := mem_filter_undefined h
                    refine ⟨hf.1, ?_⟩
                    intro r' hr'
                    exact hmem r' (hf.2 r' hr')

/-- C7 witness: the frame theorem applied to the scenario run. -/
theorem C7_frame_other_columns_witness :
    scenarioFiltered.ncols = scenarioTable.ncols ∧
    ∃ j, pyIdx scenarioTable.ncols (-1) = some j ∧
      ∀ r' ∈ scenarioFiltered.rows, ∃ r ∈ scenarioTable.rows, ∃ v,
        r' = r.set j v :=
  (C7_frame_other_columns scenarioTable (-1) 1 1 true false false).1
    scenarioFiltered (by decide)

theorem pyIdx_one {w : ℕ} (h : 2 ≤ w) : pyIdx w 1 = some 1 := by
  unfold pyIdx
  rw [if_pos (by decide : (0:ℤ) ≤ 1), if_pos (by omega : (1:ℤ) < (w:ℤ))]
  rfl

theorem pyIdx_neg_one {w : ℕ} (h : 1 ≤ w) : pyIdx w (-1) = some (w - 1) := by
  unfold pyIdx
  rw [if_neg (by decide : ¬ (0:ℤ) ≤ -1),
    if_pos (by omega : (0:ℤ) ≤ (w:ℤ) + (-1))]
  congr 1
  omega

theorem zipWith_set_getD {j : ℕ} (rows : List (List Cell))
    (hj : ∀ r ∈ rows, j < r.length) :
    List.zipWith (fun r v => r.set j v)
      rows (rows.map fun r => r.getD j none) = rows := by
  rw [List.zipWith_map_right, List.zipWith_same]
  conv_rhs => rw [← List.map_id rows]
  apply List.map_congr_left
  intro r hr
  exact set_getD_self r j (hj r hr)

/-- C8: with `steps = 0` the boundary mask marks no row (second conjunct:
for every time column the mask is all-false), the shift is a no-op copy of
the source column, and — when the target column holds no NaN — the censor
filter removes no row: under the defaults (`column_to_shift_idx = -1`,
`time_column_idx = 1`) the engine returns the input table exactly. -/
theorem C8_steps_zero_identity (t : Tensor) (ca : Bool) (hwf : t.WF)
    (hc : 2 ≤ t.ncols)
    (hall : ∀ r ∈ t.rows, (r.getD (t.ncols - 1) none).isSome) :
    shift_and_mask_column t (-1) 1 0 true false false ca = some t ∧
    ∀ tc : List Cell,
      build_boundary_mask tc 0 = List.replicate tc.length false := by
  refine ⟨?_, build_boundary_mask_zero⟩
  have hj1 : pyIdx t.ncols 1 = some 1 := pyIdx_one hc
  have hjm : pyIdx t.ncols (-1) = some (t.ncols - 1) := pyIdx_neg_one (by omega)
  have htc : getCol t 1 = some (t.rows.map fun r => r.getD 1 none) := by
    unfold getCol; rw [hj1]; rfl
  have hsc : getCol t (-1) =
      some (t.rows.map fun r => r.getD (t.ncols - 1) none) := by
    unfold getCol; rw [hjm]; rfl
  have hjlt : ∀ r ∈ t.rows, t.ncols - 1 < r.length := by
    intro r hr
    rw [hwf r hr]
    omega
  rw [shift_eq, htc, hsc]
  simp only [Bool.or_true, Bool.true_or, if_true, Bool.false_eq_true, if_false]
  set col := t.rows.map fun r => r.getD (t.ncols - 1) none with hcol
  have hmask : build_boundary_mask (t.rows.map fun r => r.getD 1 none) 0 =
      List.replicate col.length false := by
    rw [build_boundary_mask_zero]
    simp [hcol]
  rw [hmask, maskWhere_false col, neg_zero, torchRoll_zero]
  unfold setCol
  rw [hjm]
  simp only [Option.map_some']
  rw [hcol, zipWith_set_getD t.rows hjlt]
  have hfu : filter_undefined ⟨t.ncols, t.rows⟩ (-1) = some t := by
    have : (⟨t.ncols, t.rows⟩ : Tensor) = t := rfl
    rw [this, filter_undefined_eq hjm]
    have h2 : (t.rows.filter fun r => (r.getD (t.ncols - 1) none).isSome) =
        t.rows := List.filter_eq_self.mpr hall
    rw [h2]
  exact hfu

/-- C8 witness: the steps-zero theorem applied to the scenario table. -/
theorem C8_steps_zero_identity_witness :
    shift_and_mask_column scenarioTable (-1) 1 0 true false false true =
      some scenarioTable ∧
    ∀ tc : List Cell,
      build_boundary_mask tc 0 = List.replicate tc.length false :=
  C8_steps_zero_identity scenarioTable true (by decide) (by decide) (by decide)

theorem pairwise_lt_of_sorted_nodup {s : List ℚ} (hs : s.Sorted (· ≤ ·))
    (hn : s.Nodup) : s.Pairwise (· < ·) :=
  (List.Pairwise.and hs hn).imp fun h => lt_of_le_of_ne h.1 h.2

theorem mem_take_pairwise_lt : ∀ (s : List ℚ), s.Pairwise (· < ·) →
    ∀ (v : ℚ) (k : ℕ),
    v ∈ s.take k ↔ v ∈ s ∧ (s.filter fun w => w < v).length < k := by
  intro s
  induction s with
  | nil => intro _ v k; simp
  | cons a s ih =>
      intro hp v k
      have ha : ∀ w ∈ s, a < w := (List.pairwise_cons.mp hp).1
      have hs : s.Pairwise (· < ·) := (List.pairwise_cons.mp hp).2
      cases k with
      | zero => simp
      | succ k =>
          rw [List.take_succ_cons]
          by_cases hv : v = a
          · subst hv
            have hfil : (s.filter fun w => w < v) = [] := by
              apply List.filter_eq_nil_iff.mpr
              intro w hw
              simp only [decide_eq_true_eq, not_lt]
              exact le_of_lt (ha w hw)
            constructor
            · intro _
              refine ⟨List.mem_cons_self v s, ?_⟩
              rw [List.filter_cons]
              simp [hfil]
            · intro _
              exact List.mem_cons_self v (s.take k)
          · have hlhs : (v ∈ a :: s.take k) ↔ v ∈ s.take k := by
              simp [List.mem_cons, hv]
            have hmem : (v ∈ a :: s) ↔ v ∈ s := by
              simp [List.mem_cons, hv]
            rw [hlhs, hmem, ih hs v k, List.filter_cons]
            by_cases hav : a < v
            · simp only [hav, decide_True, if_true, List.length_cons]
              constructor
              · rintro ⟨h1, h2⟩; exact ⟨h1, by omega⟩
              · rintro ⟨h1, h2⟩; exact ⟨h1, by omega⟩
            · have hva : v < a := lt_of_le_of_ne (not_lt.mp hav) hv
              have hvs : v ∉ s := fun hmem' =>
                absurd (ha v hmem') (not_lt.mpr (le_of_lt hva))
              simp only [hav, decide_False, if_false]
              constructor
              · rintro ⟨h1, _⟩; exact absurd h1 hvs
              · rintro ⟨h1, _⟩; exact absurd h1 hvs

theorem uniqueSorted_map_some (tc : List ℚ) :
    torchUniqueSorted (tc.map some) =
      (List.insertionSort (· ≤ ·) tc.dedup).map some := by
  unfold torchUniqueSorted
  have h1 : (tc.map some).filterMap id = tc := by
    rw [List.filterMap_map]
    simp
  have h2 : (tc.map some).filter (fun c => c.isNone) = [] := by
    apply List.filter_eq_nil_iff.mpr
    intro c hc
    rcases List.mem_map.mp hc with ⟨v, _, hveq⟩
    rw [← hveq]
    simp
  rw [h1, h2, List.append_nil]

theorem any_beq_eq_decide_mem (v : ℚ) : ∀ s : List ℚ,
    (s.any fun w => v == w) = decide (v ∈ s) := by
  intro s
  induction s with
  | nil => rfl
  | cons a s ih =>
      simp only [List.any_cons, ih, List.mem_cons]
      by_cases hva : v = a
      · simp [hva]
      · simp [hva]

theorem isin_map_some (tc s : List ℚ) :
    torchIsin (tc.map some) (s.map some) = tc.map fun v => decide (v ∈ s) := by
  unfold torchIsin
  rw [List.map_map]
  apply List.map_congr_left
  intro v _
  have h1 : ∀ s' : List ℚ, ((s'.map some).any fun w => cellEq (some v) w) =
      (s'.any fun w => v == w) := by
    intro s'
    induction s' with
    | nil => rfl
    | cons a s' ih =>
        simp only [List.map_cons, List.any_cons, ih]
        rfl
  simpa [Function.comp] using (h1 s).trans (any_beq_eq_decide_mem v s)

/-- C2 amended: for every `steps ≥ 0` and every NaN-free time column, the
boundary mask marks row `i` iff its time value is among the `steps`
smallest distinct time values present anywhere in the table (fewer than
`steps` distinct values lie strictly below it).  For negative `steps`
this fails — see the counterexample — because the Python slice `[:steps]`
then keeps all but the `|steps|` largest distinct values. -/
theorem C2_mask_smallest_distinct (tc : List ℚ) (steps : ℤ)
    (h : 0 ≤ steps) :
    build_boundary_mask (tc.map some) steps =
      specSmallestMask tc steps.toNat := by
  rw [show build_boundary_mask (tc.map some) steps =
      torchIsin (tc.map some)
        (pySliceTo (torchUniqueSorted (tc.map some)) steps) from rfl,
    uniqueSorted_map_some]
  have hslice :
      pySliceTo ((List.insertionSort (· ≤ ·) tc.dedup).map some) steps =
        ((List.insertionSort (· ≤ ·) tc.dedup).take steps.toNat).map some := by
    unfold pySliceTo
    rw [if_pos h, List.map_take]
  rw [hslice, isin_map_some]
  apply List.map_congr_left
  intro v hv
  have hsort : (List.insertionSort (· ≤ ·) tc.dedup).Pairwise (· < ·) :=
    pairwise_lt_of_sorted_nodup (List.sorted_insertionSort _ _)
      ((List.perm_insertionSort _ _).nodup_iff.mpr tc.nodup_dedup)
  have hper : List.Perm (List.insertionSort (· ≤ ·) tc.dedup) tc.dedup :=
    List.perm_insertionSort _ _
  have hmem : v ∈ List.insertionSort (· ≤ ·) tc.dedup :=
    hper.mem_iff.mpr (List.mem_dedup.mpr hv)
  have hlen : ((List.insertionSort (· ≤ ·) tc.dedup).filter
      fun w => w < v).length = (tc.dedup.filter fun w => w < v).length :=
    (hper.filter _).length_eq
  rw [decide_eq_decide,
    mem_take_pairwise_lt (List.insertionSort (· ≤ ·) tc.dedup) hsort v
      steps.toNat, hlen]
  simp [hmem]

/-- C2 witness: the amended mask theorem applied to time column `[0,1,2]`
at `steps = 1`. -/
theorem C2_mask_smallest_distinct_witness :
    (0 : ℤ) ≤ 1 ∧
    build_boundary_mask ([0, 1, 2].map some) 1 = specSmallestMask [0, 1, 2] 1 :=
  ⟨by decide, C2_mask_smallest_distinct [0, 1, 2] 1 (by decide)⟩

theorem shift_none_of_time_oob {t : Tensor} {ci ti steps : ℤ}
    {fc rf ru ca : Bool} (h : pyIdx t.ncols ti = none) :
    shift_and_mask_column t ci ti steps fc rf ru ca = none := by
  rw [shift_eq]
  cases hg : (ca && !fc) || fc with
  | false => rfl
  | true =>
      have htc : getCol t ti = none := by
        unfold getCol; rw [h]; rfl
      rw [htc]
      cases hsc : getCol t (-ti) <;> simp

theorem shift_none_of_target_oob {t : Tensor} {ci ti steps : ℤ}
    {fc rf ca : Bool} (h : pyIdx t.ncols ci = none) :
    shift_and_mask_column t ci ti steps fc rf false ca = none := by
  rw [shift_eq]
  cases hg : (ca && !fc) || fc with
  | false => rfl
  | true =>
      cases htc : getCol t ti with
      | none => cases hsc : getCol t (-ti) <;> simp
      | some tc =>
          cases hsc : getCol t (-ti) with
          | none => simp
          | some sc =>
              have hset : setCol t ci (torchRoll
                  (maskWhere (build_boundary_mask tc steps) sc) (-steps)) =
                  none := by
                unfold setCol; rw [h]; rfl
              simp [hset]

theorem countP_isSome_add_isNone (l : List Cell) :
    l.countP (fun v => v.isSome) + l.countP (fun v => v.isNone) = l.length := by
  induction l with
  | nil => rfl
  | cons v l ih =>
      cases v <;> simp [List.countP_cons] <;> omega

theorem uniqueSorted_mem_of_some {tc : List Cell} {v : ℚ}
    (hv : (some v : Cell) ∈ tc) : (some v : Cell) ∈ torchUniqueSorted tc := by
  unfold torchUniqueSorted
  apply List.mem_append.mpr
  left
  apply List.mem_map.mpr
  refine ⟨v, ?_, rfl⟩
  apply (List.perm_insertionSort _ _).mem_iff.mpr
  apply List.mem_dedup.mpr
  exact List.mem_filterMap.mpr ⟨some v, hv, rfl⟩

theorem uniqueSorted_length_of_all_some {tc : List Cell}
    (h : ∀ c ∈ tc, c.isSome) :
    (torchUniqueSorted tc).length = (tc.filterMap id).dedup.length := by
  unfold torchUniqueSorted
  have h2 : tc.filter (fun c => c.isNone) = [] := by
    apply List.filter_eq_nil_iff.mpr
    intro c hc
    have := h c hc
    cases c
    · simp at this
    · simp
  rw [h2, List.append_nil, List.length_map]
  exact (List.perm_insertionSort _ _).length_eq

theorem shift_all_masked {t : Tensor} {ci ti steps : ℤ} {ca : Bool}
    (jt js jc : ℕ) (hwf : t.WF)
    (ht : pyIdx t.ncols ti = some jt) (hs : pyIdx t.ncols (-ti) = some js)
    (hc : pyIdx t.ncols ci = some jc)
    (hall : ∀ r ∈ t.rows, (r.getD jt none).isSome) (h0 : 0 ≤ steps)
    (hbig : ((t.rows.map fun r => r.getD jt none).filterMap id).dedup.length ≤
      steps.toNat) :
    shift_and_mask_column t ci ti steps true false false ca =
      some ⟨t.ncols, []⟩ := by
  set timeCol := t.rows.map fun r => r.getD jt none with htcol
  set srcCol := t.rows.map fun r => r.getD js none with hscol
  have halltc : ∀ c ∈ timeCol, c.isSome := by
    intro c hcmem
    rcases List.mem_map.mp hcmem with ⟨r, hr, hre⟩
    rw [← hre]
    exact hall r hr
  have htc : getCol t ti = some timeCol := by
    unfold getCol; rw [ht]; rfl
  have hsc : getCol t (-ti) = some srcCol := by
    unfold getCol; rw [hs]; rfl
  have hmask : build_boundary_mask timeCol steps =
      List.replicate timeCol.length true := by
    rw [show build_boundary_mask timeCol steps =
      torchIsin timeCol (pySliceTo (torchUniqueSorted timeCol) steps)
      from rfl]
    have htake : pySliceTo (torchUniqueSorted timeCol) steps =
        torchUniqueSorted timeCol := by
      unfold pySliceTo
      rw [if_pos h0]
      apply List.take_of_length_le
      rw [uniqueSorted_length_of_all_some halltc]
      exact hbig
    rw [htake]
    apply List.eq_replicate_iff.mpr
    constructor
    · unfold torchIsin
      simp
    · intro b hb
      unfold torchIsin at hb
      rcases List.mem_map.mp hb with ⟨c, hcmem, hbeq⟩
      have hcs := halltc c hcmem
      cases c with
      | none => simp at hcs
      | some v =>
          rw [← hbeq]
          apply List.any_eq_true.mpr
          refine ⟨some v, uniqueSorted_mem_of_some hcmem, ?_⟩
          simp [cellEq]
  have hlen2 : timeCol.length = srcCol.length := by
    rw [htcol, hscol]
    simp
  have hmasked : maskWhere (build_boundary_mask timeCol steps) srcCol =
      List.replicate srcCol.length none := by
    rw [hmask, hlen2, maskWhere_true]
  have hjclt : ∀ r ∈ t.rows, jc < r.length := by
    intro r hr
    rw [hwf r hr]
    exact pyIdx_lt hc
  rw [shift_eq]
  simp only [Bool.or_true, Bool.not_true, Bool.and_false, Bool.false_or,
    if_true, Bool.false_eq_true, if_false]
  rw [htc, hsc]
  simp only [Bool.false_eq_true, if_false]
  rw [hmasked, torchRoll_replicate]
  unfold setCol
  rw [hc]
  simp only [Option.map_some']
  rw [filter_undefined_eq (t := ⟨t.ncols, List.zipWith (fun r v => r.set jc v)
    t.rows (List.replicate srcCol.length none)⟩) hc]
  have hnil : (List.zipWith (fun r v => r.set jc v) t.rows
      (List.replicate srcCol.length none)).filter
        (fun r => (r.getD jc none).isSome) = [] := by
    apply List.filter_eq_nil_iff.mpr
    intro r' hr'
    rcases mem_zipWith hr' with ⟨r, hr, v, hv, hre⟩
    have hvn : v = none := List.eq_of_mem_replicate hv
    rw [hre, hvn, getD_set_self (hjclt r hr) none none]
    simp
  rw [hnil]

/-- C5 amended: an out-of-range time or source/target column index does
make the call fail before any table is produced (first two conjuncts; the
source column index is `-time_column_idx`, covered by the first conjunct
since torch accepts exactly the indices `-w ≤ i < w`, so `ti` resolves iff
`-ti` does on a nonempty width... the second conjunct covers the written
target column `column_to_shift_idx`).  But a `steps` magnitude exceeding
the number of distinct time values does NOT fail fast as the claim states:
the Python slice `[:steps]` silently clamps, every row is masked, and the
filtered call succeeds with an empty table (third conjunct; see the
counterexample for a concrete run). -/
theorem C5_error_behavior :
    (∀ (t : Tensor) (ci ti steps : ℤ) (fc rf ru ca : Bool),
        pyIdx t.ncols ti = none →
        shift_and_mask_column t ci ti steps fc rf ru ca = none) ∧
    (∀ (t : Tensor) (ci ti steps : ℤ) (fc rf ca : Bool),
        pyIdx t.ncols ci = none →
        shift_and_mask_column t ci ti steps fc rf false ca = none) ∧
    (∀ (t : Tensor) (ci ti steps : ℤ) (ca : Bool) (jt js jc : ℕ),
        t.WF → pyIdx t.ncols ti = some jt → pyIdx t.ncols (-ti) = some js →
        pyIdx t.ncols ci = some jc →
        (∀ r ∈ t.rows, (r.getD jt none).isSome) → 0 ≤ steps →
        ((t.rows.map fun r => r.getD jt none).filterMap id).dedup.length ≤
          steps.toNat →
        shift_and_mask_column t ci ti steps true false false ca =
          some ⟨t.ncols, []⟩) :=
  ⟨fun _ _ _ _ _ _ _ _ h => shift_none_of_time_oob h,
   fun _ _ _ _ _ _ _ h => shift_none_of_target_oob h,
   fun _ _ _ _ _ jt js jc hwf ht hs hc hall h0 hbig =>
     shift_all_masked jt js jc hwf ht hs hc hall h0 hbig⟩

/-- C5 witness: the three conjuncts of the amended theorem at concrete
inputs — time index 7 out of range, target index 9 out of range, and an
oversized `steps = 5` on the scenario table succeeding with an empty
result. -/
theorem C5_error_behavior_witness :
    shift_and_mask_column scenarioTable (-1) 7 1 true false false false =
      none ∧
    shift_and_mask_column scenarioTable 9 1 1 true false false false =
      none ∧
    shift_and_mask_column scenarioTable (-1) 1 5 true false false false =
      some ⟨4, []⟩ :=
  ⟨C5_error_behavior.1 scenarioTable (-1) 7 1 true false false false
      (by decide),
   C5_error_behavior.2.1 scenarioTable 9 1 1 true false false (by decide),
   C5_error_behavior.2.2 scenarioTable (-1) 1 5 false 1 3 3 (by decide)
      (by decide) (by decide) (by decide) (by decide) (by decide) (by decide)⟩

theorem union_eq_right_of_subset : ∀ {l d : List ℚ}, l ⊆ d → l ∪ d = d := by
  intro l
  induction l with
  | nil => intro d _; rfl
  | cons a l ih =>
      intro d h
      have ha : a ∈ d := h (List.mem_cons_self a l)
      have hsub : l ⊆ d := fun x hx => h (List.mem_cons_of_mem a hx)
      rw [List.cons_union, ih hsub, List.insert_of_mem ha]

theorem dedup_flatMap_range_const (l0 : List ℚ) (G : ℕ) (hG : 1 ≤ G) :
    ((List.range G).flatMap fun _ => l0).dedup = l0.dedup := by
  obtain ⟨n, rfl⟩ : ∃ n, G = n + 1 := ⟨G - 1, by omega⟩
  rw [List.range_succ, List.flatMap_append]
  have h2 : ([n].flatMap fun _ => l0) = l0 := by simp
  rw [h2, List.dedup_append]
  apply union_eq_right_of_subset
  intro x hx
  rcases List.mem_flatMap.mp hx with ⟨g, _, hxl⟩
  exact List.mem_dedup.mpr hxl

theorem natsQ_nodup (T : ℕ) : ((List.range T).map fun τ : ℕ => (τ : ℚ)).Nodup :=
  (List.nodup_range T).map fun _ _ h => Nat.cast_injective h

theorem natsQ_sorted (T : ℕ) :
    ((List.range T).map fun τ : ℕ => (τ : ℚ)).Sorted (· ≤ ·) := by
  refine List.pairwise_map.mpr ?_
  refine (List.pairwise_lt_range T).imp ?_
  intro a b h
  exact_mod_cast le_of_lt h

theorem uniqueSorted_tile (G T : ℕ) (hG : 1 ≤ G) :
    torchUniqueSorted (((List.range G).flatMap fun _ =>
        (List.range T).map fun τ : ℕ => (τ : ℚ)).map some) =
      ((List.range T).map fun τ : ℕ => (τ : ℚ)).map some := by
  rw [uniqueSorted_map_some, dedup_flatMap_range_const _ G hG,
    List.dedup_eq_self.mpr (natsQ_nodup T),
    List.Sorted.insertionSort_eq (natsQ_sorted T)]

theorem mkPanel_time_col (G T : ℕ) (rid tgt : ℕ → ℕ → ℚ) :
    getCol (mkPanel G T rid tgt) 1 =
      some (((List.range G).flatMap fun _ =>
        (List.range T).map fun τ : ℕ => (τ : ℚ)).map some) := by
  have hpy : pyIdx (mkPanel G T rid tgt).ncols 1 = some 1 := rfl
  unfold getCol
  rw [hpy]
  simp only [Option.map_some', Option.some.injEq]
  rw [show (mkPanel G T rid tgt).rows = (List.range G).flatMap fun g =>
    (List.range T).map fun τ =>
      [some (rid g τ), some (τ : ℚ), some (g : ℚ), some (tgt g τ)] from rfl]
  rw [List.map_flatMap, List.map_flatMap]
  congr 1
  funext g
  rw [List.map_map, List.map_map]
  apply List.map_congr_left
  intro τ _
  rfl

theorem mkPanel_target_col (G T : ℕ) (rid tgt : ℕ → ℕ → ℚ) :
    getCol (mkPanel G T rid tgt) (-1) =
      some ((List.range G).flatMap fun g =>
        (List.range T).map fun τ => (some (tgt g τ) : Cell)) := by
  have hpy : pyIdx (mkPanel G T rid tgt).ncols (-1) = some 3 := rfl
  unfold getCol
  rw [hpy]
  simp only [Option.map_some', Option.some.injEq]
  rw [show (mkPanel G T rid tgt).rows = (List.range G).flatMap fun g =>
    (List.range T).map fun τ =>
      [some (rid g τ), some (τ : ℚ), some (g : ℚ), some (tgt g τ)] from rfl]
  rw [List.map_flatMap]
  congr 1
  funext g
  rw [List.map_map]
  apply List.map_congr_left
  intro τ _
  rfl

theorem mask_tile (G T : ℕ) (steps : ℤ) (hG : 1 ≤ G) (h0 : 0 ≤ steps)
    (hT : steps ≤ (T : ℤ)) :
    build_boundary_mask (((List.range G).flatMap fun _ =>
        (List.range T).map fun τ : ℕ => (τ : ℚ)).map some) steps =
      ((List.range G).flatMap fun _ =>
        (List.range T).map fun τ : ℕ => (τ : ℚ)).map
        (fun v => decide (v ∈ (List.range steps.toNat).map
          fun τ : ℕ => (τ : ℚ))) := by
  rw [show build_boundary_mask (((List.range G).flatMap fun _ =>
      (List.range T).map fun τ : ℕ => (τ : ℚ)).map some) steps =
    torchIsin (((List.range G).flatMap fun _ =>
      (List.range T).map fun τ : ℕ => (τ : ℚ)).map some)
      (pySliceTo (torchUniqueSorted (((List.range G).flatMap fun _ =>
        (List.range T).map fun τ : ℕ => (τ : ℚ)).map some)) steps) from rfl]
  rw [uniqueSorted_tile G T hG]
  have htake : pySliceTo (((List.range T).map fun τ : ℕ => (τ : ℚ)).map some)
      steps = ((List.range steps.toNat).map fun τ : ℕ => (τ : ℚ)).map some := by
    unfold pySliceTo
    rw [if_pos h0, ← List.map_take, ← List.map_take, List.take_range]
    have hmin : min steps.toNat T = steps.toNat := by omega
    rw [hmin]
  rw [htake, isin_map_some]

theorem length_flatMap_const_len {α : Type} (f : ℕ → List α) (T : ℕ)
    (h : ∀ g, (f g).length = T) : ∀ G,
    ((List.range G).flatMap f).length = G * T := by
  intro G
  induction G with
  | zero => simp
  | succ n ih =>
      rw [List.range_succ, List.flatMap_append, List.length_append, ih]
      have h2 : ([n].flatMap f).length = T := by simp [h n]
      rw [h2]
      ring

theorem count_true_map {α : Type} (f : α → Bool) (l : List α) :
    (l.map f).count true = l.countP f := by
  induction l with
  | nil => rfl
  | cons a l ih =>
      cases hfa : f a <;>
        simp [List.count_cons, List.countP_cons, hfa, ih]

theorem countP_tile (p : ℚ → Bool) (inner : List ℚ) : ∀ G,
    ((List.range G).flatMap fun _ => inner).countP p = G * inner.countP p := by
  intro G
  induction G with
  | zero => simp
  | succ n ih =>
      rw [List.range_succ, List.flatMap_append, List.countP_append, ih]
      have h2 : ([n].flatMap fun _ => inner) = inner := by simp
      rw [h2]
      ring

theorem countP_range_lt (k : ℕ) : ∀ T,
    (List.range T).countP (fun τ => decide (τ < k)) = min k T := by
  intro T
  induction T with
  | zero => simp
  | succ n ih =>
      rw [List.range_succ, List.countP_append, ih]
      by_cases h : n < k
      · simp [List.countP_cons, h]
        omega
      · simp [List.countP_cons, h]
        omega

theorem countP_natsQ_mem_range (T k : ℕ) (hk : k ≤ T) :
    ((List.range T).map fun τ : ℕ => (τ : ℚ)).countP
      (fun v => decide (v ∈ (List.range k).map fun τ : ℕ => (τ : ℚ))) = k := by
  rw [List.countP_map]
  have hpt : ∀ τ ∈ List.range T,
      ((fun v => decide (v ∈ (List.range k).map fun τ2 : ℕ => (τ2 : ℚ))) ∘
        fun τ2 : ℕ => (τ2 : ℚ)) τ = decide (τ < k) := by
    intro τ _
    simp only [Function.comp]
    rw [decide_eq_decide]
    constructor
    · intro hmem
      rcases List.mem_map.mp hmem with ⟨τ2, hτ2, heq⟩
      have hcast : τ2 = τ := Nat.cast_injective heq
      rw [← hcast]
      exact List.mem_range.mp hτ2
    · intro hlt
      exact List.mem_map.mpr ⟨τ, List.mem_range.mpr hlt, rfl⟩
  rw [List.countP_congr (fun τ hτ => by rw [hpt τ hτ]), countP_range_lt]
  omega

/-- C3 amended: the row-count law holds for positive shifts.  For every
panel table of `G ≥ 1` groups all spanning the time indices `0, …, T-1`
exactly once (sorted by group then time, arbitrary numeric row_id and
target values, so the target column holds no NaN) and every
`1 ≤ steps ≤ T`, the filtering engine run removes exactly
`G * steps` rows.  For negative `steps` the law fails — see the
counterexample — because the mask then marks all but the `|steps|`
largest time values. -/
theorem C3_rowcount_law (G T : ℕ) (rid tgt : ℕ → ℕ → ℚ) (steps : ℤ)
    (hG : 1 ≤ G) (h1 : 1 ≤ steps) (hT : steps ≤ (T : ℤ)) :
    ∃ t', shift_and_mask_column (mkPanel G T rid tgt) (-1) 1 steps true
        false false false = some t' ∧
      (mkPanel G T rid tgt).rows.length = G * T ∧
      t'.rows.length = G * T - G * steps.toNat ∧
      (mkPanel G T rid tgt).rows.length - t'.rows.length =
        G * steps.toNat := by
  have hk : steps.toNat ≤ T := by omega
  have hres : shift_and_mask_column (mkPanel G T rid tgt) (-1) 1 steps true
      false false false = some ⟨4, ((List.zipWith (fun r v => r.set 3 v) (mkPanel G T rid tgt).rows (torchRoll (maskWhere (((List.range G).flatMap fun _ => (List.range T).map fun τ : ℕ => (τ : ℚ)).map (fun v => decide (v ∈ (List.range steps.toNat).map fun τ : ℕ => (τ : ℚ)))) ((List.range G).flatMap fun g => (List.range T).map fun τ => (some (tgt g τ) : Cell))) (-steps))).filter (fun r => (r.getD 3 none).isSome))⟩ := by
    rw [shift_eq, mkPanel_time_col G T rid tgt, mkPanel_target_col G T rid tgt]
    simp only [Bool.or_true, if_true, Bool.false_eq_true, if_false]
    rw [mask_tile G T steps hG (by omega) hT]
    unfold setCol
    rw [show pyIdx (mkPanel G T rid tgt).ncols (-1) = some 3 from rfl]
    simp only [Option.map_some']
    rw [filter_undefined_eq (t := ⟨(mkPanel G T rid tgt).ncols, (List.zipWith (fun r v => r.set 3 v) (mkPanel G T rid tgt).rows (torchRoll (maskWhere (((List.range G).flatMap fun _ => (List.range T).map fun τ : ℕ => (τ : ℚ)).map (fun v => decide (v ∈ (List.range steps.toNat).map fun τ : ℕ => (τ : ℚ)))) ((List.range G).flatMap fun g => (List.range T).map fun τ => (some (tgt g τ) : Cell))) (-steps)))⟩)
      (show pyIdx (mkPanel G T rid tgt).ncols (-1) = some 3 from rfl)]
    rfl
  have hrowsP : (mkPanel G T rid tgt).rows.length = G * T := by
    rw [show (mkPanel G T rid tgt).rows = (List.range G).flatMap fun g =>
      (List.range T).map fun τ =>
        [some (rid g τ), some (τ : ℚ), some (g : ℚ), some (tgt g τ)] from rfl]
    exact length_flatMap_const_len _ T (fun g => by simp) G
  have htilelen : ((List.range G).flatMap fun _ => (List.range T).map fun τ : ℕ => (τ : ℚ)).length = G * T :=
    length_flatMap_const_len _ T (fun g => by simp) G
  have hsrclen : ((List.range G).flatMap fun g => (List.range T).map fun τ => (some (tgt g τ) : Cell)).length = G * T :=
    length_flatMap_const_len _ T (fun g => by simp) G
  have hmasklen : (((List.range G).flatMap fun _ => (List.range T).map fun τ : ℕ => (τ : ℚ)).map (fun v => decide (v ∈ (List.range steps.toNat).map fun τ : ℕ => (τ : ℚ)))).length = G * T := by
    rw [List.length_map]
    exact htilelen
  have hcountmask : (((List.range G).flatMap fun _ => (List.range T).map fun τ : ℕ => (τ : ℚ)).map (fun v => decide (v ∈ (List.range steps.toNat).map fun τ : ℕ => (τ : ℚ)))).count true = G * steps.toNat := by
    rw [count_true_map, countP_tile, countP_natsQ_mem_range T steps.toNat hk]
  have hsrcsome : ∀ v ∈ ((List.range G).flatMap fun g => (List.range T).map fun τ => (some (tgt g τ) : Cell)), v.isSome := by
    intro v hv
    rcases List.mem_flatMap.mp hv with ⟨g, _, hvg⟩
    rcases List.mem_map.mp hvg with ⟨τ, _, hveq⟩
    rw [← hveq]
    rfl
  have hmaskedcount : (maskWhere (((List.range G).flatMap fun _ => (List.range T).map fun τ : ℕ => (τ : ℚ)).map (fun v => decide (v ∈ (List.range steps.toNat).map fun τ : ℕ => (τ : ℚ)))) ((List.range G).flatMap fun g => (List.range T).map fun τ => (some (tgt g τ) : Cell))).countP
      (fun v => v.isNone) = G * steps.toNat := by
    rw [countP_isNone_maskWhere _ _ (by rw [hmasklen, hsrclen]) hsrcsome,
      hcountmask]
  have hmaskedlen : (maskWhere (((List.range G).flatMap fun _ => (List.range T).map fun τ : ℕ => (τ : ℚ)).map (fun v => decide (v ∈ (List.range steps.toNat).map fun τ : ℕ => (τ : ℚ)))) ((List.range G).flatMap fun g => (List.range T).map fun τ => (some (tgt g τ) : Cell))).length = G * T := by
    rw [maskWhere_length, hmasklen, hsrclen]
    omega
  have hshiftcount : (torchRoll (maskWhere (((List.range G).flatMap fun _ => (List.range T).map fun τ : ℕ => (τ : ℚ)).map (fun v => decide (v ∈ (List.range steps.toNat).map fun τ : ℕ => (τ : ℚ)))) ((List.range G).flatMap fun g => (List.range T).map fun τ => (some (tgt g τ) : Cell))) (-steps)).countP (fun v => v.isNone) = G * steps.toNat := by
    rw [torchRoll_countP, hmaskedcount]
  have hshiftlen : (torchRoll (maskWhere (((List.range G).flatMap fun _ => (List.range T).map fun τ : ℕ => (τ : ℚ)).map (fun v => decide (v ∈ (List.range steps.toNat).map fun τ : ℕ => (τ : ℚ)))) ((List.range G).flatMap fun g => (List.range T).map fun τ => (some (tgt g τ) : Cell))) (-steps)).length = G * T := by
    rw [torchRoll_length, hmaskedlen]
  have hshiftsome : (torchRoll (maskWhere (((List.range G).flatMap fun _ => (List.range T).map fun τ : ℕ => (τ : ℚ)).map (fun v => decide (v ∈ (List.range steps.toNat).map fun τ : ℕ => (τ : ℚ)))) ((List.range G).flatMap fun g => (List.range T).map fun τ => (some (tgt g τ) : Cell))) (-steps)).countP (fun v => v.isSome) =
      G * T - G * steps.toNat := by
    have hadd := countP_isSome_add_isNone (torchRoll (maskWhere (((List.range G).flatMap fun _ => (List.range T).map fun τ : ℕ => (τ : ℚ)).map (fun v => decide (v ∈ (List.range steps.toNat).map fun τ : ℕ => (τ : ℚ)))) ((List.range G).flatMap fun g => (List.range T).map fun τ => (some (tgt g τ) : Cell))) (-steps))
    omega
  have hrowlen4 : ∀ r ∈ (mkPanel G T rid tgt).rows, 3 < r.length := by
    intro r hr
    rw [show (mkPanel G T rid tgt).rows = (List.range G).flatMap fun g =>
      (List.range T).map fun τ =>
        [some (rid g τ), some (τ : ℚ), some (g : ℚ), some (tgt g τ)]
      from rfl] at hr
    rcases List.mem_flatMap.mp hr with ⟨g, _, hrg⟩
    rcases List.mem_map.mp hrg with ⟨τ, _, hreq⟩
    rw [← hreq]
    simp
  have hreadback : (List.zipWith (fun r v => r.set 3 v) (mkPanel G T rid tgt).rows (torchRoll (maskWhere (((List.range G).flatMap fun _ => (List.range T).map fun τ : ℕ => (τ : ℚ)).map (fun v => decide (v ∈ (List.range steps.toNat).map fun τ : ℕ => (τ : ℚ)))) ((List.range G).flatMap fun g => (List.range T).map fun τ => (some (tgt g τ) : Cell))) (-steps))).map (fun r => r.getD 3 none) = (torchRoll (maskWhere (((List.range G).flatMap fun _ => (List.range T).map fun τ : ℕ => (τ : ℚ)).map (fun v => decide (v ∈ (List.range steps.toNat).map fun τ : ℕ => (τ : ℚ)))) ((List.range G).flatMap fun g => (List.range T).map fun τ => (some (tgt g τ) : Cell))) (-steps)) :=
    map_getD_zipWith_set (mkPanel G T rid tgt).rows (torchRoll (maskWhere (((List.range G).flatMap fun _ => (List.range T).map fun τ : ℕ => (τ : ℚ)).map (fun v => decide (v ∈ (List.range steps.toNat).map fun τ : ℕ => (τ : ℚ)))) ((List.range G).flatMap fun g => (List.range T).map fun τ => (some (tgt g τ) : Cell))) (-steps))
      (by rw [hrowsP, hshiftlen]) hrowlen4
  have hflen : ((List.zipWith (fun r v => r.set 3 v) (mkPanel G T rid tgt).rows (torchRoll (maskWhere (((List.range G).flatMap fun _ => (List.range T).map fun τ : ℕ => (τ : ℚ)).map (fun v => decide (v ∈ (List.range steps.toNat).map fun τ : ℕ => (τ : ℚ)))) ((List.range G).flatMap fun g => (List.range T).map fun τ => (some (tgt g τ) : Cell))) (-steps))).filter (fun r => (r.getD 3 none).isSome)).length = G * T - G * steps.toNat := by
    rw [← List.countP_eq_length_filter]
    have hcp : (List.zipWith (fun r v => r.set 3 v) (mkPanel G T rid tgt).rows (torchRoll (maskWhere (((List.range G).flatMap fun _ => (List.range T).map fun τ : ℕ => (τ : ℚ)).map (fun v => decide (v ∈ (List.range steps.toNat).map fun τ : ℕ => (τ : ℚ)))) ((List.range G).flatMap fun g => (List.range T).map fun τ => (some (tgt g τ) : Cell))) (-steps))).countP (fun r => (r.getD 3 none).isSome) =
        ((List.zipWith (fun r v => r.set 3 v) (mkPanel G T rid tgt).rows (torchRoll (maskWhere (((List.range G).flatMap fun _ => (List.range T).map fun τ : ℕ => (τ : ℚ)).map (fun v => decide (v ∈ (List.range steps.toNat).map fun τ : ℕ => (τ : ℚ)))) ((List.range G).flatMap fun g => (List.range T).map fun τ => (some (tgt g τ) : Cell))) (-steps))).map (fun r => r.getD 3 none)).countP
          (fun v => v.isSome) :=
      (List.countP_map (fun v : Cell => v.isSome)
        (fun r : List Cell => r.getD 3 none) _).symm
    rw [hcp, hreadback, hshiftsome]
  refine ⟨⟨4, ((List.zipWith (fun r v => r.set 3 v) (mkPanel G T rid tgt).rows (torchRoll (maskWhere (((List.range G).flatMap fun _ => (List.range T).map fun τ : ℕ => (τ : ℚ)).map (fun v => decide (v ∈ (List.range steps.toNat).map fun τ : ℕ => (τ : ℚ)))) ((List.range G).flatMap fun g => (List.range T).map fun τ => (some (tgt g τ) : Cell))) (-steps))).filter (fun r => (r.getD 3 none).isSome))⟩, hres, hrowsP, hflen, ?_⟩
  have hle : G * steps.toNat ≤ G * T := Nat.mul_le_mul_left G hk
  rw [hrowsP]
  show G * T - ((List.zipWith (fun r v => r.set 3 v) (mkPanel G T rid tgt).rows (torchRoll (maskWhere (((List.range G).flatMap fun _ => (List.range T).map fun τ : ℕ => (τ : ℚ)).map (fun v => decide (v ∈ (List.range steps.toNat).map fun τ : ℕ => (τ : ℚ)))) ((List.range G).flatMap fun g => (List.range T).map fun τ => (some (tgt g τ) : Cell))) (-steps))).filter (fun r => (r.getD 3 none).isSome)).length = G * steps.toNat
  rw [hflen]
  exact Nat.sub_sub_self hle

/-- C3 witness: the amended row-count law at `G = 2` groups of `T = 3`
time steps with `steps = 2`: the spec's second scenario, `2 × 2 = 4` rows
removed. -/
theorem C3_rowcount_law_witness :
    (1 : ℕ) ≤ 2 ∧ (1 : ℤ) ≤ 2 ∧ (2 : ℤ) ≤ ((3 : ℕ) : ℤ) ∧
    ∃ t', shift_and_mask_column
        (mkPanel 2 3 (fun g τ => (g : ℚ) * 3 + τ)
          (fun g τ => (g : ℚ) * 10 + τ)) (-1) 1 2 true false false false =
        some t' ∧
      (mkPanel 2 3 (fun g τ => (g : ℚ) * 3 + τ)
        (fun g τ => (g : ℚ) * 10 + τ)).rows.length = 2 * 3 ∧
      t'.rows.length = 2 * 3 - 2 * (2 : ℤ).toNat ∧
      (mkPanel 2 3 (fun g τ => (g : ℚ) * 3 + τ)
        (fun g τ => (g : ℚ) * 10 + τ)).rows.length - t'.rows.length =
        2 * (2 : ℤ).toNat :=
  ⟨by decide, by decide, by decide,
   C3_rowcount_law 2 3 (fun g τ => (g : ℚ) * 3 + τ)
     (fun g τ => (g : ℚ) * 10 + τ) 2 (by decide) (by decide) (by decide)⟩
